import Mathlib

/-!
Verification development for the zxcv HTML-to-text rendering engine.

The definitions below are a shallow embedding of the Rust sources:
  * `src/html/squeeze_whitespace.rs` (whitespace squeezer),
  * `src/html/escape_markdown.rs` (Markdown escaper),
  * `src/html/state.rs` (Block / RawBlock accumulator state),
  * `src/html.rs` (node renderer dispatch),
  * `src/html/table.rs` (table layout engine).

Machine integers (`usize`) are modelled as `Nat`; where the Rust code can
underflow a subtraction or divide by zero (a panic in debug builds), the
embedding uses checked operations returning `Option Nat`, so a `none`
result models a panic.  Strings are modelled as `List Char` (the cited
code only manipulates ASCII prefixes, so byte lengths and char counts
coincide where the source mixes them).  External collaborator crates
(`unicode-width`, `textwrap`, `url`, the HTML parser) are modelled by
explicit functions or oracle parameters, noted at each site.
-/

set_option maxHeartbeats 1000000
set_option linter.unusedVariables false

namespace Zxcv

/-! ### Character classes (src/html/squeeze_whitespace.rs) -/

/-- Rust `char::is_whitespace`: the Unicode `White_Space` property. -/
def rustIsWhitespace (c : Char) : Bool :=
  c.toNat = 0x20 || c.toNat = 0x09 || c.toNat = 0x0A || c.toNat = 0x0B ||
    c.toNat = 0x0C || c.toNat = 0x0D || c.toNat = 0x85 || c.toNat = 0xA0 ||
    c.toNat = 0x1680 || (0x2000 ≤ c.toNat && c.toNat ≤ 0x200A) ||
    c.toNat = 0x2028 || c.toNat = 0x2029 || c.toNat = 0x202F ||
    c.toNat = 0x205F || c.toNat = 0x3000

/-- `is_whitespace` from `squeeze_whitespace.rs`: standard whitespace plus
U+200B (zero-width space). -/
def is_whitespace (c : Char) : Bool :=
  rustIsWhitespace c || c.toNat = 0x200B

/-! ### The whitespace squeezer (src/html/squeeze_whitespace.rs)

The Rust `SqueezeWhitespace` iterator holds the remaining character
iterator and a one-character lookahead buffer (field `next`).  `new` runs
`chars.find(|c| !is_whitespace(c))`; we model `Iterator::find` by
`findNonWs`, which returns the found character and the characters after it. -/

def findNonWs : List Char → Option Char × List Char
  | [] => (none, [])
  | c :: cs => if is_whitespace c then findNonWs cs else (some c, cs)

/-- The iterator state of `SqueezeWhitespace` (field `next` is the buffered
lookahead character). -/
structure SqueezeWhitespace where
  chars : List Char
  next : Option Char

/-- `SqueezeWhitespace::new`. -/
def SqueezeWhitespace.new (l : List Char) : SqueezeWhitespace :=
  ⟨(findNonWs l).2, (findNonWs l).1⟩

theorem findNonWs_snd_length : ∀ l : List Char, (findNonWs l).2.length ≤ l.length := by
  intro l
  induction l with
  | nil => simp [findNonWs]
  | cons c cs ih =>
    simp only [findNonWs]
    split
    · exact Nat.le_succ_of_le ih
    · simp

theorem findNonWs_some_length {l : List Char} {c : Char} {cs : List Char}
    (h : findNonWs l = (some c, cs)) : cs.length < l.length := by
  induction l with
  | nil => simp [findNonWs] at h
  | cons d ds ih =>
    simp only [findNonWs] at h
    split at h
    · exact Nat.lt_succ_of_lt (ih h)
    · cases h
      exact Nat.lt_succ_self _

mutual

/-- `SqueezeWhitespace::next` fused with iterator collection, on the two
fields `(chars, next)` of the iterator state: a buffered character is
emitted first; reading a whitespace character runs the inlined
`self.chars.find(|c| !is_whitespace(*c))` step (`squeezeFind`).  The
`fuel` argument is only a termination device (each step consumes one
unit; two units per input character plus two always suffice, and
`squeeze` supplies exactly that), so the `fuel = 0` base case is never
reached. -/
def squeezeRun : Nat → List Char → Option Char → List Char
  | 0, _, _ => []
  | fuel + 1, cs, some c => c :: squeezeRun fuel cs none
  | _ + 1, [], none => []
  | fuel + 1, c :: cs, none =>
    if is_whitespace c then squeezeFind fuel cs
    else c :: squeezeRun fuel cs none
termination_by structural fuel _ _ => fuel

/-- The `self.next = self.chars.find(|c| !is_whitespace(*c))` step of
`SqueezeWhitespace::next` after a whitespace character, fused with
collection: if a non-whitespace character is found, `' '` is emitted and
the found character buffered; otherwise the iterator ends. -/
def squeezeFind : Nat → List Char → List Char
  | 0, _ => []
  | _ + 1, [] => []
  | fuel + 1, c :: cs =>
    if is_whitespace c then squeezeFind fuel cs
    else ' ' :: squeezeRun fuel cs (some c)
termination_by structural fuel _ => fuel

end

/-- Collecting `SqueezeWhitespace::new(chars)`. -/
def squeeze (l : List Char) : List Char :=
  squeezeRun (2 * l.length + 2) (SqueezeWhitespace.new l).chars (SqueezeWhitespace.new l).next

/-! ### The Markdown escaper (src/html/escape_markdown.rs) -/

/-- The characters escaped by `EscapeMarkdown`
(`matches!(next, '#' | '*' | '\\' | '_' | '`')`). -/
def isEscapeChar (c : Char) : Bool :=
  c = '#' || c = '*' || c = '\\' || c = '_' || c = Char.ofNat 0x60

/-- `EscapeMarkdown::next` fused with iterator collection, on the two
fields `(chars, next)` of the iterator state: the `next` field buffers
the character to emit after an emitted backslash.  The `fuel` argument is
only a termination device (two units per input character plus one always
suffice, and `escape_markdown` supplies exactly that). -/
def escapeRun : Nat → List Char → Option Char → List Char
  | 0, _, _ => []
  | fuel + 1, cs, some c => c :: escapeRun fuel cs none
  | _ + 1, [], none => []
  | fuel + 1, c :: cs, none =>
    if isEscapeChar c then '\\' :: escapeRun fuel cs (some c)
    else c :: escapeRun fuel cs none

/-- Collecting `EscapeMarkdown::new(chars)`. -/
def escape_markdown (l : List Char) : List Char :=
  escapeRun (2 * l.length + 1) l none

/-! ### Spec-side formulation of whitespace squeezing

The specification describes the squeezer output as the maximal runs of
non-whitespace characters ("words") joined by exactly one space.  These
definitions follow the spec's words; `squeeze_eq_joinWords_wordsOf` below
proves the source iterator equal to them. -/

/-- The maximal non-whitespace prefix of `l`, and the rest of `l`. -/
def takeWord : List Char → List Char × List Char
  | [] => ([], [])
  | c :: cs =>
    if is_whitespace c then ([], c :: cs)
    else (c :: (takeWord cs).1, (takeWord cs).2)

theorem takeWord_snd_length : ∀ l : List Char, (takeWord l).2.length ≤ l.length := by
  intro l
  induction l with
  | nil => simp [takeWord]
  | cons c cs ih =>
    simp only [takeWord]
    split
    · simp
    · exact Nat.le_succ_of_le ih

/-- Accumulator pass splitting `l` into its maximal non-whitespace runs
(`acc` holds the reversed current run). -/
def wordsAux : List Char → List Char → List (List Char)
  | [], acc => if acc = [] then [] else [acc.reverse]
  | c :: cs, acc =>
    if is_whitespace c then
      (if acc = [] then wordsAux cs [] else acc.reverse :: wordsAux cs [])
    else wordsAux cs (c :: acc)

/-- The maximal runs of non-whitespace characters of `l`, in order. -/
def wordsOf (l : List Char) : List (List Char) :=
  wordsAux l []

/-- Join the tail words of a word list, each preceded by one space. -/
def joinTail : List (List Char) → List Char
  | [] => []
  | w :: ws => ' ' :: (w ++ joinTail ws)

/-- Join a word list with exactly one space between adjacent words. -/
def joinWords : List (List Char) → List Char
  | [] => []
  | w :: ws => w ++ joinTail ws

/-! ### Basic equations for `wordsOf` -/

theorem wordsOf_nil : wordsOf [] = [] := rfl

theorem wordsOf_cons_ws {c : Char} (cs : List Char) (h : is_whitespace c = true) :
    wordsOf (c :: cs) = wordsOf cs := by
  simp [wordsOf, wordsAux, h]

theorem wordsAux_acc_ne : ∀ (cs acc : List Char), acc ≠ [] →
    wordsAux cs acc = (acc.reverse ++ (takeWord cs).1) :: wordsOf (takeWord cs).2 := by
  intro cs
  induction cs with
  | nil =>
    intro acc h
    simp [wordsAux, h, takeWord, wordsOf_nil]
  | cons c cs ih =>
    intro acc h
    by_cases hc : is_whitespace c = true
    · simp only [wordsAux, hc, if_true, h, if_neg h]
      simp only [takeWord, hc, if_true]
      rw [wordsOf_cons_ws cs hc]
      simp [wordsOf]
    · have hc' : is_whitespace c = false := by simpa using hc
      simp only [wordsAux, hc', Bool.false_eq_true, if_false]
      rw [ih (c :: acc) (by simp)]
      simp [takeWord, hc']

theorem wordsOf_cons_nonws {c : Char} (cs : List Char) (h : is_whitespace c = false) :
    wordsOf (c :: cs) = (c :: (takeWord cs).1) :: wordsOf (takeWord cs).2 := by
  simp only [wordsOf, wordsAux, h, Bool.false_eq_true, if_false]
  rw [wordsAux_acc_ne cs [c] (by simp)]
  simp [wordsOf]

/-! ### Squeezer: equivalence with the spec formulation -/

theorem squeezeRun_cons_ws {c : Char} (fuel : Nat) (cs : List Char)
    (h : is_whitespace c = true) :
    squeezeRun (fuel + 1) (c :: cs) none = squeezeFind fuel cs := by
  simp [squeezeRun, h]

theorem squeezeRun_cons_nonws {c : Char} (fuel : Nat) (cs : List Char)
    (h : is_whitespace c = false) :
    squeezeRun (fuel + 1) (c :: cs) none = c :: squeezeRun fuel cs none := by
  simp [squeezeRun, h]

theorem findNonWs_some_wordsOf : ∀ {l : List Char} {d : Char} {cs' : List Char},
    findNonWs l = (some d, cs') →
    is_whitespace d = false ∧ wordsOf l = wordsOf (d :: cs') := by
  intro l
  induction l with
  | nil => intro d cs' h; simp [findNonWs] at h
  | cons c cs ih =>
    intro d cs' h
    by_cases hc : is_whitespace c = true
    · rw [findNonWs] at h
      simp only [hc, if_true] at h
      obtain ⟨hd, hw⟩ := ih h
      exact ⟨hd, by rw [wordsOf_cons_ws cs hc, hw]⟩
    · have hc' : is_whitespace c = false := by simpa using hc
      rw [findNonWs] at h
      simp only [hc', Bool.false_eq_true, if_false] at h
      obtain ⟨h1, h2⟩ := Prod.mk.injEq .. ▸ h
      cases h1
      cases h2
      exact ⟨hc', rfl⟩

theorem findNonWs_none_wordsOf : ∀ {l rest : List Char},
    findNonWs l = (none, rest) → wordsOf l = [] ∧ rest = [] := by
  intro l
  induction l with
  | nil =>
    intro rest h
    simp only [findNonWs, Prod.mk.injEq] at h
    exact ⟨wordsOf_nil, h.2.symm⟩
  | cons c cs ih =>
    intro rest h
    by_cases hc : is_whitespace c = true
    · rw [findNonWs] at h
      simp only [hc, if_true] at h
      obtain ⟨hw, hr⟩ := ih h
      exact ⟨by rw [wordsOf_cons_ws cs hc, hw], hr⟩
    · have hc' : is_whitespace c = false := by simpa using hc
      rw [findNonWs] at h
      simp [hc'] at h

theorem squeeze_spec_aux : ∀ fuel : Nat,
    (∀ l : List Char, 2 * l.length + 1 ≤ fuel →
      squeezeRun fuel l none = (takeWord l).1 ++ joinTail (wordsOf (takeWord l).2)) ∧
    (∀ l : List Char, 2 * l.length + 2 ≤ fuel →
      squeezeFind fuel l = joinTail (wordsOf l)) := by
  intro fuel
  induction fuel using Nat.strong_induction_on with
  | _ fuel ih =>
    constructor
    · intro l hl
      rcases fuel with _ | f
      · omega
      rcases l with _ | ⟨c, cs⟩
      · simp [squeezeRun, takeWord, wordsOf_nil, joinTail]
      · simp only [List.length_cons] at hl
        by_cases hc : is_whitespace c = true
        · rw [squeezeRun_cons_ws f cs hc]
          rw [(ih f (by omega)).2 cs (by omega)]
          simp [takeWord, hc, wordsOf_cons_ws cs hc]
        · have hc' : is_whitespace c = false := by simpa using hc
          rw [squeezeRun_cons_nonws f cs hc']
          rw [(ih f (by omega)).1 cs (by omega)]
          simp [takeWord, hc']
    · intro l hl
      rcases fuel with _ | f
      · omega
      rcases l with _ | ⟨c, cs⟩
      · simp [squeezeFind, wordsOf_nil, joinTail]
      · simp only [List.length_cons] at hl
        by_cases hc : is_whitespace c = true
        · have h1 : squeezeFind (f + 1) (c :: cs) = squeezeFind f cs := by
            simp [squeezeFind, hc]
          rw [h1, (ih f (by omega)).2 cs (by omega), wordsOf_cons_ws cs hc]
        · have hc' : is_whitespace c = false := by simpa using hc
          have h1 : squeezeFind (f + 1) (c :: cs) = ' ' :: squeezeRun f cs (some c) := by
            simp [squeezeFind, hc']
          rw [h1]
          rcases f with _ | f2
          · omega
          · have h2 : squeezeRun (f2 + 1) cs (some c) = c :: squeezeRun f2 cs none := by
              simp [squeezeRun]
            rw [h2, (ih f2 (by omega)).1 cs (by omega)]
            rw [wordsOf_cons_nonws cs hc']
            simp [joinTail]

/-- The squeezer equals the spec formulation: maximal non-whitespace runs
joined by single spaces. -/
theorem squeeze_eq_joinWords_wordsOf (l : List Char) :
    squeeze l = joinWords (wordsOf l) := by
  unfold squeeze SqueezeWhitespace.new
  cases hf : findNonWs l with
  | mk fst snd =>
    cases fst with
    | none =>
      obtain ⟨hw, hr⟩ := findNonWs_none_wordsOf hf
      simp only [hf]
      subst hr
      rw [hw]
      show squeezeRun (2 * l.length + 1 + 1) [] none = joinWords []
      simp [squeezeRun, joinWords]
    | some d =>
      simp only [hf]
      obtain ⟨hd, hw⟩ := findNonWs_some_wordsOf hf
      have hlen := findNonWs_some_length hf
      show squeezeRun (2 * l.length + 1 + 1) snd (some d) = _
      have h2 : squeezeRun (2 * l.length + 1 + 1) snd (some d)
          = d :: squeezeRun (2 * l.length + 1) snd none := by
        simp [squeezeRun]
      rw [h2, (squeeze_spec_aux (2 * l.length + 1)).1 snd (by omega)]
      rw [hw, wordsOf_cons_nonws _ hd]
      simp [joinWords]

/-! ### Words of squeezed output (for idempotence) -/

theorem takeWord_fst_nonws : ∀ cs : List Char,
    ((takeWord cs).1.all fun c => !is_whitespace c) = true := by
  intro cs
  induction cs with
  | nil => simp [takeWord]
  | cons d ds ih =>
    by_cases hd : is_whitespace d = true
    · simp [takeWord, hd]
    · have hd' : is_whitespace d = false := by simpa using hd
      simp [takeWord, hd', ih]

theorem takeWord_all_nonws : ∀ {l : List Char},
    (l.all fun c => !is_whitespace c) = true → takeWord l = (l, []) := by
  intro l
  induction l with
  | nil => intro _; rfl
  | cons c cs ih =>
    intro h
    simp only [List.all_cons, Bool.and_eq_true, Bool.not_eq_true'] at h
    simp [takeWord, h.1, ih (by simpa using h.2)]

theorem takeWord_append_space : ∀ {w : List Char} (rest : List Char),
    (w.all fun c => !is_whitespace c) = true →
    takeWord (w ++ ' ' :: rest) = (w, ' ' :: rest) := by
  intro w
  induction w with
  | nil =>
    intro rest _
    simp only [List.nil_append, takeWord]
    simp [show is_whitespace ' ' = true by decide]
  | cons c cs ih =>
    intro rest h
    simp only [List.all_cons, Bool.and_eq_true, Bool.not_eq_true'] at h
    simp [takeWord, h.1, ih rest (by simpa using h.2)]

theorem wordsOf_single {w : List Char} (hne : w ≠ [])
    (h : (w.all fun c => !is_whitespace c) = true) : wordsOf w = [w] := by
  match w with
  | [] => exact absurd rfl hne
  | c :: cs =>
    simp only [List.all_cons, Bool.and_eq_true, Bool.not_eq_true'] at h
    rw [wordsOf_cons_nonws _ h.1, takeWord_all_nonws (by simpa using h.2)]
    simp [wordsOf_nil]

theorem wordsOf_word_space {w : List Char} (rest : List Char) (hne : w ≠ [])
    (h : (w.all fun c => !is_whitespace c) = true) :
    wordsOf (w ++ ' ' :: rest) = w :: wordsOf rest := by
  match w with
  | [] => exact absurd rfl hne
  | c :: cs =>
    simp only [List.all_cons, Bool.and_eq_true, Bool.not_eq_true'] at h
    rw [List.cons_append, wordsOf_cons_nonws _ h.1,
      takeWord_append_space rest (by simpa using h.2)]
    simp only [List.cons.injEq, true_and]
    exact wordsOf_cons_ws rest (by decide)

theorem wordsOf_good_aux : ∀ n : Nat, ∀ l : List Char, l.length ≤ n → ∀ w ∈ wordsOf l,
    w ≠ [] ∧ (w.all fun c => !is_whitespace c) = true := by
  intro n
  induction n with
  | zero =>
    intro l hl
    have : l = [] := List.length_eq_zero.mp (Nat.le_zero.mp hl)
    subst this
    rw [wordsOf_nil]
    intro w hw
    simp at hw
  | succ n ih =>
    intro l hl
    match l with
    | [] =>
      rw [wordsOf_nil]
      intro w hw
      simp at hw
    | c :: cs =>
      have hcs : cs.length ≤ n := by
        simp only [List.length_cons] at hl
        omega
      by_cases hc : is_whitespace c = true
      · rw [wordsOf_cons_ws cs hc]
        exact ih cs hcs
      · have hc' : is_whitespace c = false := by simpa using hc
        rw [wordsOf_cons_nonws cs hc']
        intro w hw
        rcases List.mem_cons.mp hw with h1 | h2
        · subst h1
          refine ⟨by simp, ?_⟩
          simp only [List.all_cons, Bool.and_eq_true, Bool.not_eq_true']
          exact ⟨hc', takeWord_fst_nonws cs⟩
        · have hlen : (takeWord cs).2.length ≤ n :=
            Nat.le_trans (takeWord_snd_length cs) hcs
          exact ih (takeWord cs).2 hlen w h2

theorem wordsOf_good (l : List Char) : ∀ w ∈ wordsOf l,
    w ≠ [] ∧ (w.all fun c => !is_whitespace c) = true :=
  wordsOf_good_aux l.length l (Nat.le_refl _)

theorem wordsOf_joinWords : ∀ ws : List (List Char),
    (∀ w ∈ ws, w ≠ [] ∧ (w.all fun c => !is_whitespace c) = true) →
    wordsOf (joinWords ws) = ws := by
  intro ws
  induction ws with
  | nil => intro _; simp [joinWords, wordsOf_nil]
  | cons w rest ih =>
    intro h
    obtain ⟨hne, hgood⟩ := h w (by simp)
    match rest with
    | [] =>
      simp only [joinWords, joinTail, List.append_nil]
      exact wordsOf_single hne hgood
    | v :: vs =>
      have hj : joinWords (w :: v :: vs) = w ++ ' ' :: joinWords (v :: vs) := by
        simp [joinWords, joinTail]
      rw [hj, wordsOf_word_space _ hne hgood,
        ih (fun x hx => h x (List.mem_cons_of_mem _ hx))]

/-! ### Escaper: equivalence with the spec formulation -/

theorem escapeRun_spec : ∀ fuel : Nat, ∀ l : List Char, 2 * l.length + 1 ≤ fuel →
    escapeRun fuel l none = l.flatMap fun c => if isEscapeChar c then ['\\', c] else [c] := by
  intro fuel
  induction fuel using Nat.strong_induction_on with
  | _ fuel ih =>
    intro l hl
    rcases fuel with _ | f
    · omega
    rcases l with _ | ⟨c, cs⟩
    · simp [escapeRun]
    · simp only [List.length_cons] at hl
      by_cases hc : isEscapeChar c = true
      · have h1 : escapeRun (f + 1) (c :: cs) none = '\\' :: escapeRun f cs (some c) := by
          simp [escapeRun, hc]
        rcases f with _ | f2
        · omega
        · have h2 : escapeRun (f2 + 1) cs (some c) = c :: escapeRun f2 cs none := by
            simp [escapeRun]
          rw [h1, h2, ih f2 (by omega) cs (by omega)]
          simp [hc]
      · have hc' : isEscapeChar c = false := by simpa using hc
        have h1 : escapeRun (f + 1) (c :: cs) none = c :: escapeRun f cs none := by
          simp [escapeRun, hc']
        rw [h1, ih f (by omega) cs (by omega)]
        simp [hc']

theorem escape_markdown_eq_flatMap (l : List Char) :
    escape_markdown l = l.flatMap fun c => if isEscapeChar c then ['\\', c] else [c] :=
  escapeRun_spec (2 * l.length + 1) l (Nat.le_refl _)

/-! ### HTML node trees

The parsed HTML tree handed to the renderer by the collaborating parser
(`scraper`/`html5ever`).  Only text and element nodes are dispatched on;
other node kinds (comments, doctypes) fall into the renderer's final
catch-all and are dropped, so they are not represented. -/

inductive HtmlNode where
  | text (s : String)
  | element (name : String) (attrs : List (String × String)) (children : List HtmlNode)

/-- `Element::attr`: the value of the first attribute named `key`. -/
def getAttr (attrs : List (String × String)) (key : String) : Option String :=
  (attrs.find? fun p => p.1 = key).map (·.2)

def isElementNode : HtmlNode → Bool
  | .element _ _ _ => true
  | .text _ => false

def isElemNamed (name : String) : HtmlNode → Bool
  | .element n _ _ => n = name
  | .text _ => false

def nodeChildren : HtmlNode → List HtmlNode
  | .text _ => []
  | .element _ _ cs => cs

/-- `child_elements()`: the element children, in order. -/
def childElements (children : List HtmlNode) : List HtmlNode :=
  children.filter isElementNode

/-! ### Display width and small string helpers -/

/-- Display width of a string, from the collaborator crate `unicode-width`;
modelled as the character count (exact for the ASCII strings the claims
exercise). -/
def displayWidth (l : List Char) : Nat := l.length

/-- `str::trim_end` (standard Rust whitespace, without U+200B). -/
def rustTrimEnd (l : List Char) : List Char :=
  (l.reverse.dropWhile rustIsWhitespace).reverse

def splitCharAux (sep : Char) : List Char → List Char → List (List Char)
  | [], acc => [acc.reverse]
  | c :: cs, acc =>
    if c = sep then acc.reverse :: splitCharAux sep cs []
    else splitCharAux sep cs (c :: acc)

/-- `str::split(sep)` (always at least one piece). -/
def splitChar (sep : Char) (l : List Char) : List (List Char) :=
  splitCharAux sep l []

/-- Maximum of a list of `Nat`s, `0` for the empty list: models
`Iterator::max().unwrap_or_default()`. -/
def natListMax (l : List Nat) : Nat := l.foldl Nat.max 0

/-! ### Table layout engine (src/html/table.rs)

`usize` arithmetic that can panic is modelled by checked operations;
a `none` result models the panic. -/

/-- Checked `usize` subtraction: `none` models the underflow panic. -/
def checkedSub (a b : Nat) : Option Nat :=
  if b ≤ a then some (a - b) else none

/-- Checked `usize` division: `none` models the divide-by-zero panic. -/
def checkedDiv (a b : Nat) : Option Nat :=
  if b = 0 then none else some (a / b)

/-- Checked `usize::div_ceil`: `none` models the divide-by-zero panic. -/
def checkedCeilDiv (a b : Nat) : Option Nat :=
  if b = 0 then none else some ((a + b - 1) / b)

/-- Map a fallible function over a list, propagating the first `none`
(models a panic inside a Rust iterator pipeline, in evaluation order). -/
def optMap (f : α → Option β) : List α → Option (List β)
  | [] => some []
  | a :: rest =>
    match f a with
    | none => none
    | some b =>
      match optMap f rest with
      | none => none
      | some bs => some (b :: bs)

structure ColumnStat where
  min : Nat
  avg : Nat
  max : Nat

/-- The unique direct child element named `name`, if exactly one matches:
`select_single_element(&table, ":scope > name")`. -/
def selectSingleDirectChild (name : String) (children : List HtmlNode) : Option HtmlNode :=
  match children.filter (isElemNamed name) with
  | [x] => some x
  | _ => none

structure Table where
  data : List (List HtmlNode)
  headers : Nat
  footers : Nat

/-- `parse_table`. -/
def parse_table (table : HtmlNode) : Table :=
  let header := selectSingleDirectChild "thead" (nodeChildren table)
  let body := selectSingleDirectChild "tbody" (nodeChildren table)
  let footer := selectSingleDirectChild "tfoot" (nodeChildren table)
  let headers := (header.map fun h => (childElements (nodeChildren h)).length).getD 0
  let footers := (footer.map fun f => (childElements (nodeChildren f)).length).getD 0
  let rows := ([header, body, footer].filterMap id).flatMap fun e => childElements (nodeChildren e)
  { data := rows.map fun r => childElements (nodeChildren r),
    headers := headers, footers := footers }

/-- The fold body of `compute_column_stats`: the accumulator is the tuple
`(count, min, sum, max)`.  Per cell: the widest word (via the `textwrap`
word separator, modelled as space-separated tokens) and the widest
rendered line. -/
def cellStatStep (acc : Nat × Nat × Nat × Nat) (rendered : List Char) :
    Nat × Nat × Nat × Nat :=
  let maxWordWidth :=
    natListMax (((splitChar ' ' rendered).filter (· ≠ [])).map displayWidth)
  let maxLineWidth := natListMax ((splitChar '\n' rendered).map displayWidth)
  (acc.1 + 1, Nat.max acc.2.1 maxWordWidth, acc.2.2.1 + maxLineWidth,
    Nat.max acc.2.2.2 maxLineWidth)

/-- `compute_column_stats`, over already-rendered cell text: each cell
string is the output `render_node(**cell, url, None)` of the collaborating
node renderer.  `avg` is a checked division, since `sum / count` is a
`usize` division. -/
def compute_column_stats (data : List (List (List Char))) : Option (List ColumnStat) :=
  let columnCount := natListMax (data.map List.length)
  optMap (fun i =>
      let folded := (data.filterMap fun r => r.get? i).foldl cellStatStep
        ((0, 0, 0, 0) : Nat × Nat × Nat × Nat)
      (checkedDiv folded.2.2.1 folded.1).map fun avg =>
        ColumnStat.mk folded.2.1 avg folded.2.2.2)
    (List.range columnCount)

/-- `compute_widths`.  All `usize` subtractions, divisions and `div_ceil`
calls are checked; `none` models the corresponding panic. -/
def compute_widths (stats : List ColumnStat) (maxWidth : Option Nat) : Option (List Nat) :=
  match maxWidth with
  | none => some (stats.map (·.max))
  | some maxWidth =>
    match checkedSub stats.length 1 with
    | none => none
    | some lenm1 =>
      let colSep := lenm1 * 3
      if (stats.map (·.max)).sum + colSep ≤ maxWidth then some (stats.map (·.max))
      else if (stats.map (·.min)).sum + colSep ≥ maxWidth then some (stats.map (·.min))
      else
        let cl := stats.map fun s => { s with avg := Nat.max s.avg s.min }
        let avgTotal := (cl.map (·.avg)).sum + colSep
        if avgTotal < maxWidth then
          let extra := maxWidth - avgTotal
          match optMap (fun s => checkedSub s.max s.avg) cl with
          | none => none
          | some hs =>
            let delta := hs.sum
            optMap (fun s =>
                match checkedSub s.max s.avg with
                | none => none
                | some hroom => (checkedDiv (extra * hroom) delta).map fun q => s.avg + q)
              cl
        else if avgTotal = maxWidth then some (cl.map (·.avg))
        else
          let extra := avgTotal - maxWidth
          match optMap (fun s => checkedSub s.avg s.min) cl with
          | none => none
          | some ss =>
            let delta := ss.sum
            optMap (fun s =>
                match checkedSub s.avg s.min with
                | none => none
                | some slack =>
                  match checkedCeilDiv (extra * slack) delta with
                  | none => none
                  | some q => checkedSub s.avg q)
              cl

/-- One `=`/`-` separator line: each column filled with `fill`, columns
joined by `sepChars` (`"=|="` / `"-|-"`). -/
def sepFill (fill : Char) (sepChars : List Char) (widths : List Nat) : List Char :=
  match widths with
  | [] => []
  | w :: ws => List.replicate w fill ++ ws.flatMap fun w' => sepChars ++ List.replicate w' fill

/-- `write!(result, "{sep}{content:width$}")` with the source's munge
`width + content.chars().count() - content.width()` for double-width
characters: pad `content` with spaces to that character count. -/
def padTo (width : Nat) (content : List Char) : List Char :=
  let target := width + content.length - displayWidth content
  content ++ List.replicate (target - content.length) ' '

/-- One physical output line of a row: the `line`-th line of every cell,
padded to its column width, joined by `sep` (`" | "` on the first line,
`"   "` on continuations). -/
def rowLineContent (sep : List Char) (widths : List Nat)
    (cellLines : List (List (List Char))) (line : Nat) : List Char :=
  match cellLines.zip widths with
  | [] => []
  | (c, w) :: rest =>
    padTo w (c.getD line []) ++ rest.flatMap fun p => sep ++ padTo p.2 (p.1.getD line [])

/-- The row-rendering loop of `render_table` (after widths are known).
`renderCell cell w` stands for the collaborating recursive call
`render_node(*element, url, NonZeroUsize::new(*width))`; a width of `0`
becomes `none` exactly as `NonZeroUsize::new` does. -/
def render_table_rows (renderCell : HtmlNode → Option Nat → List Char)
    (widths : List Nat) (table : Table) : List Char :=
  let footerStart := table.data.length - table.footers
  table.data.enum.foldl
    (fun result iRow =>
      let i := iRow.1
      let row := iRow.2
      let result := if i ≠ 0 then result ++ ['\n'] else result
      let result :=
        if i = footerStart then result ++ sepFill '-' "-|-".data widths ++ ['\n'] else result
      let cellLines := (row.zip widths).map fun p =>
        splitChar '\n' (renderCell p.1 (if p.2 = 0 then none else some p.2))
      let lineCount := natListMax (cellLines.map List.length)
      let result := (List.range lineCount).foldl
        (fun result line =>
          let result := if line ≠ 0 then result ++ ['\n'] else result
          let sep := if line = 0 then " | ".data else "   ".data
          rustTrimEnd (result ++ rowLineContent sep widths cellLines line))
        result
      if i + 1 = table.headers then result ++ '\n' :: sepFill '=' "=|=".data widths
      else result)
    []

/-- `render_table`.  The `String::with_capacity` argument
`(widths.sum + 3 * (widths.len() - 1) + 1) * rows` contains a `usize`
subtraction that underflows when `widths` is empty, hence the checked
subtraction before the rows are rendered. -/
def render_table (renderCell : HtmlNode → Option Nat → List Char)
    (tableElement : HtmlNode) (maxWidth : Option Nat) : Option (List Char) :=
  let table := parse_table tableElement
  if table.data.isEmpty then some []
  else
    match compute_column_stats
        (table.data.map fun row => row.map fun cell => renderCell cell none) with
    | none => none
    | some stats =>
      match compute_widths stats maxWidth with
      | none => none
      | some widths =>
        match checkedSub widths.length 1 with
        | none => none
        | some lenm1 =>
          let _capacity := (widths.sum + 3 * lenm1 + 1) * table.data.length
          some (render_table_rows renderCell widths table)

/-- The width allocation as worded by the specification and claim C1: `max`
for every column when unconstrained or when the `max` widths (plus
`3*(columns-1)` separators) fit; `min` for every column when even the `min`
widths plus separators do not fit; otherwise clamp each `avg` up to its
`min`, then add the remaining slack proportionally to each column's
`max − avg` headroom when below target, or remove the excess proportionally
to each column's `avg − min` slack using ceiling division when above. -/
def claimWidths (stats : List ColumnStat) (W : Nat) : List Nat :=
  let colSep := (stats.length - 1) * 3
  if (stats.map (·.max)).sum + colSep ≤ W then stats.map (·.max)
  else if (stats.map (·.min)).sum + colSep > W then stats.map (·.min)
  else
    let cl := stats.map fun s => { s with avg := Nat.max s.avg s.min }
    let avgTotal := (cl.map (·.avg)).sum + colSep
    if avgTotal < W then
      let extra := W - avgTotal
      let delta := (cl.map fun s => s.max - s.avg).sum
      cl.map fun s => s.avg + extra * (s.max - s.avg) / delta
    else if avgTotal = W then cl.map (·.avg)
    else
      let extra := avgTotal - W
      let delta := (cl.map fun s => s.avg - s.min).sum
      cl.map fun s => s.avg - (extra * (s.avg - s.min) + delta - 1) / delta

/-! ### Arithmetic and list helper lemmas -/

theorem checkedSub_of_le {a b : Nat} (h : b ≤ a) : checkedSub a b = some (a - b) := by
  simp [checkedSub, h]

theorem checkedDiv_of_ne {a d : Nat} (h : d ≠ 0) : checkedDiv a d = some (a / d) := by
  simp [checkedDiv, h]

theorem checkedCeilDiv_of_ne {a d : Nat} (h : d ≠ 0) :
    checkedCeilDiv a d = some ((a + d - 1) / d) := by
  simp [checkedCeilDiv, h]

theorem optMap_eq_map {α β : Type} {f : α → Option β} {g : α → β} :
    ∀ l : List α, (∀ a ∈ l, f a = some (g a)) → optMap f l = some (l.map g) := by
  intro l
  induction l with
  | nil => intro _; rfl
  | cons a rest ih =>
    intro h
    simp only [optMap, h a (by simp), ih fun x hx => h x (List.mem_cons_of_mem _ hx),
      List.map_cons]

theorem optMap_isSome {α β : Type} {f : α → Option β} :
    ∀ l : List α, (∀ a ∈ l, (f a).isSome) → (optMap f l).isSome := by
  intro l
  induction l with
  | nil => intro _; rfl
  | cons a rest ih =>
    intro h
    have ha := h a (by simp)
    have hr := ih fun x hx => h x (List.mem_cons_of_mem _ hx)
    simp only [optMap]
    cases hfa : f a with
    | none => rw [hfa] at ha; simp at ha
    | some b =>
      cases hrest : optMap f rest with
      | none => rw [hrest] at hr; simp at hr
      | some bs => simp

theorem sum_map_add {α : Type} (l : List α) (f g : α → Nat) :
    (l.map fun a => f a + g a).sum = (l.map f).sum + (l.map g).sum := by
  induction l with
  | nil => simp
  | cons a rest ih => simp [ih]; omega

theorem sum_map_le_of_le {α : Type} (l : List α) (f g : α → Nat)
    (h : ∀ a ∈ l, g a ≤ f a) : (l.map g).sum ≤ (l.map f).sum := by
  induction l with
  | nil => simp
  | cons a rest ih =>
    simp only [List.map_cons, List.sum_cons]
    have := h a (by simp)
    have := ih fun x hx => h x (List.mem_cons_of_mem _ hx)
    omega

theorem sum_map_sub_of_le {α : Type} (l : List α) (f g : α → Nat)
    (h : ∀ a ∈ l, g a ≤ f a) :
    (l.map fun a => f a - g a).sum = (l.map f).sum - (l.map g).sum := by
  induction l with
  | nil => simp
  | cons a rest ih =>
    simp only [List.map_cons, List.sum_cons]
    rw [ih fun x hx => h x (List.mem_cons_of_mem _ hx)]
    have := h a (by simp)
    have := sum_map_le_of_le rest f g fun x hx => h x (List.mem_cons_of_mem _ hx)
    omega

theorem map_eq_map_of_sum_eq {α : Type} (l : List α) (f g : α → Nat)
    (hle : ∀ a ∈ l, g a ≤ f a) (hsum : (l.map f).sum = (l.map g).sum) :
    l.map f = l.map g := by
  induction l with
  | nil => rfl
  | cons a rest ih =>
    simp only [List.map_cons, List.sum_cons] at hsum ⊢
    have h1 := hle a (by simp)
    have h2 := sum_map_le_of_le rest f g fun x hx => hle x (List.mem_cons_of_mem _ hx)
    have hfa : f a = g a := by omega
    have hrest : (rest.map f).sum = (rest.map g).sum := by omega
    rw [hfa, ih (fun x hx => hle x (List.mem_cons_of_mem _ hx)) hrest]

theorem div_add_div_le (a b d : Nat) : a / d + b / d ≤ (a + b) / d := by
  rcases Nat.eq_zero_or_pos d with h | h
  · subst h; simp
  · rw [Nat.le_div_iff_mul_le h, Nat.add_mul]
    exact Nat.add_le_add (Nat.div_mul_le_self a d) (Nat.div_mul_le_self b d)

theorem sum_map_div_le {α : Type} (l : List α) (f : α → Nat) (d : Nat) :
    (l.map fun a => f a / d).sum ≤ (l.map f).sum / d := by
  induction l with
  | nil => simp
  | cons a rest ih =>
    simp only [List.map_cons, List.sum_cons]
    calc f a / d + (rest.map fun a => f a / d).sum ≤ f a / d + (rest.map f).sum / d :=
          Nat.add_le_add_left ih _
      _ ≤ (f a + (rest.map f).sum) / d := div_add_div_le _ _ _

theorem le_ceil_mul {d : Nat} (hd : 0 < d) (a : Nat) : a ≤ d * ((a + d - 1) / d) := by
  have h1 := Nat.div_add_mod (a + d - 1) d
  have h2 : (a + d - 1) % d < d := Nat.mod_lt _ hd
  have h3 : a + d - 1 + 1 = a + d := by omega
  linarith [h1, h2, h3]

theorem ceil_le_iff {d : Nat} (hd : 0 < d) (a s : Nat) :
    (a + d - 1) / d ≤ s ↔ a ≤ d * s := by
  constructor
  · intro h
    calc a ≤ d * ((a + d - 1) / d) := le_ceil_mul hd a
      _ ≤ d * s := Nat.mul_le_mul_left d h
  · intro h
    have h1 : a + d - 1 ≤ d * s + (d - 1) := by omega
    calc (a + d - 1) / d ≤ (d * s + (d - 1)) / d := Nat.div_le_div_right h1
      _ = s + (d - 1) / d := Nat.mul_add_div hd s (d - 1)
      _ = s := by rw [Nat.div_eq_of_lt (by omega)]; omega

theorem ceil_mul_self {d : Nat} (hd : 0 < d) (e : Nat) : (d * e + d - 1) / d = e := by
  have h1 : d * e + d - 1 = d * e + (d - 1) := by omega
  rw [h1, Nat.mul_add_div hd e (d - 1), Nat.div_eq_of_lt (by omega)]
  omega

theorem ceil_add_le {d : Nat} (hd : 0 < d) (a b : Nat) :
    (a + b + d - 1) / d ≤ (a + d - 1) / d + (b + d - 1) / d := by
  rw [ceil_le_iff hd, Nat.mul_add]
  exact Nat.add_le_add (le_ceil_mul hd a) (le_ceil_mul hd b)

theorem ceil_sum_le {α : Type} (l : List α) (f : α → Nat) {d : Nat} (hd : 0 < d) :
    ((l.map f).sum + d - 1) / d ≤ (l.map fun a => (f a + d - 1) / d).sum := by
  induction l with
  | nil => simp [Nat.div_eq_of_lt (by omega : d - 1 < d)]
  | cons a rest ih =>
    simp only [List.map_cons, List.sum_cons]
    calc (f a + (rest.map f).sum + d - 1) / d
        ≤ (f a + d - 1) / d + ((rest.map f).sum + d - 1) / d := ceil_add_le hd _ _
      _ ≤ (f a + d - 1) / d + (rest.map fun a => (f a + d - 1) / d).sum :=
          Nat.add_le_add_left ih _

theorem natListMax_lt {i : Nat} : ∀ {l : List Nat}, i < natListMax l → ∃ n ∈ l, i < n := by
  have haux : ∀ (l : List Nat) (a : Nat), i < l.foldl Nat.max a → i < a ∨ ∃ n ∈ l, i < n := by
    intro l
    induction l with
    | nil => intro a h; exact Or.inl h
    | cons b rest ih =>
      intro a h
      simp only [List.foldl_cons] at h
      rcases ih (Nat.max a b) h with h1 | h2
      · rcases lt_max_iff.mp h1 with h3 | h4
        · exact Or.inl h3
        · exact Or.inr ⟨b, by simp, h4⟩
      · obtain ⟨n, hn, hin⟩ := h2
        exact Or.inr ⟨n, List.mem_cons_of_mem _ hn, hin⟩
  intro l h
  rcases haux l 0 h with h1 | h2
  · omega
  · exact h2

theorem map_congr_mem {α β : Type} (l : List α) (f g : α → β)
    (h : ∀ a ∈ l, f a = g a) : l.map f = l.map g := by
  induction l with
  | nil => rfl
  | cons a rest ih =>
    simp only [List.map_cons]
    rw [h a (by simp), ih fun x hx => h x (List.mem_cons_of_mem _ hx)]

/-! ### compute_widths agrees with the claim's description -/

theorem lessBranch_eval (cl : List ColumnStat) (extra delta : Nat)
    (hd : delta ≠ 0) (hle : ∀ s ∈ cl, s.avg ≤ s.max) :
    optMap (fun s =>
        match checkedSub s.max s.avg with
        | none => none
        | some hroom => (checkedDiv (extra * hroom) delta).map fun q => s.avg + q) cl
      = some (cl.map fun s => s.avg + extra * (s.max - s.avg) / delta) := by
  apply optMap_eq_map
  intro s hs
  simp only [checkedSub_of_le (hle s hs), checkedDiv_of_ne hd, Option.map_some']

theorem greaterBranch_eval (cl : List ColumnStat) (extra delta : Nat)
    (hd : delta ≠ 0) (hle : ∀ s ∈ cl, s.min ≤ s.avg)
    (hqle : ∀ s ∈ cl, (extra * (s.avg - s.min) + delta - 1) / delta ≤ s.avg) :
    optMap (fun s =>
        match checkedSub s.avg s.min with
        | none => none
        | some slack =>
          match checkedCeilDiv (extra * slack) delta with
          | none => none
          | some q => checkedSub s.avg q) cl
      = some (cl.map fun s => s.avg - (extra * (s.avg - s.min) + delta - 1) / delta) := by
  apply optMap_eq_map
  intro s hs
  simp only [checkedSub_of_le (hle s hs), checkedCeilDiv_of_ne hd,
    checkedSub_of_le (hqle s hs)]

theorem compute_widths_eq_claimWidths (stats : List ColumnStat) (W : Nat)
    (hne : stats ≠ []) (h : ∀ s ∈ stats, s.min ≤ s.max ∧ s.avg ≤ s.max) :
    compute_widths stats (some W) = some (claimWidths stats W) := by
  have hlen : 0 < stats.length := List.length_pos.mpr hne
  have hsub : checkedSub stats.length 1 = some (stats.length - 1) := checkedSub_of_le hlen
  simp only [compute_widths, claimWidths, hsub]
  set cl := stats.map (fun s => { s with avg := Nat.max s.avg s.min }) with hcl
  have havg_le : ∀ s ∈ cl, s.avg ≤ s.max := by
    intro s hs
    rw [hcl] at hs
    obtain ⟨s0, hs0, rfl⟩ := List.mem_map.mp hs
    have hh := h s0 hs0
    simp only [Nat.max_le]
    exact ⟨hh.2, hh.1⟩
  have hmin_le : ∀ s ∈ cl, s.min ≤ s.avg := by
    intro s hs
    rw [hcl] at hs
    obtain ⟨s0, hs0, rfl⟩ := List.mem_map.mp hs
    exact Nat.le_max_right _ _
  have hclmax : (cl.map fun s => s.max) = stats.map fun s => s.max := by
    rw [hcl, List.map_map]
    rfl
  have hclmin : (cl.map fun s => s.min) = stats.map fun s => s.min := by
    rw [hcl, List.map_map]
    rfl
  set csep := (stats.length - 1) * 3 with hcsep
  set M := (stats.map fun s => s.max).sum with hM
  set N := (stats.map fun s => s.min).sum with hN
  set A := (cl.map fun s => s.avg).sum with hA
  have hNA : N ≤ A := by
    rw [hN, ← hclmin, hA]
    exact sum_map_le_of_le _ _ _ hmin_le
  have hMA : A ≤ M := by
    rw [hA, hM, ← hclmax]
    exact sum_map_le_of_le _ _ _ havg_le
  by_cases h1 : M + csep ≤ W
  · simp [h1]
  · simp only [if_neg h1]
    by_cases h2 : N + csep > W
    · have h2' : N + csep ≥ W := Nat.le_of_lt h2
      simp only [if_pos h2', if_pos h2]
    · simp only [if_neg h2]
      by_cases h3 : N + csep ≥ W
      · -- boundary: N + csep = W; compute_widths returns min, the claim's
        -- wording falls through to the proportional branch, which also
        -- yields min.
        have hb : N + csep = W := by omega
        simp only [if_pos h3]
        rcases Nat.eq_or_lt_of_le (show W ≤ A + csep by omega) with heq | hlt
        · have hnl : ¬(A + csep < W) := by omega
          simp only [if_neg hnl, if_pos heq.symm]
          have hsum' : (cl.map fun s => s.avg).sum = (cl.map fun s => s.min).sum := by
            rw [← hA, hclmin, ← hN]
            omega
          have hmap := map_eq_map_of_sum_eq cl _ _ hmin_le hsum'
          rw [hmap, hclmin]
        · have hnl : ¬(A + csep < W) := by omega
          have hne4 : ¬(A + csep = W) := by omega
          simp only [if_neg hnl, if_neg hne4]
          have hdsum : (cl.map fun s => s.avg - s.min).sum = A - N := by
            rw [sum_map_sub_of_le _ _ _ hmin_le, ← hA, hclmin, ← hN]
          have hdpos : 0 < (cl.map fun s => s.avg - s.min).sum := by
            rw [hdsum]
            omega
          have hext : A + csep - W = (cl.map fun s => s.avg - s.min).sum := by
            rw [hdsum]
            omega
          have hmap2 : (cl.map fun s => s.avg -
                ((A + csep - W) * (s.avg - s.min) +
                    (cl.map fun s => s.avg - s.min).sum - 1) /
                  (cl.map fun s => s.avg - s.min).sum)
              = cl.map fun s => s.min := by
            apply map_congr_mem
            intro s hs
            rw [hext, ceil_mul_self hdpos]
            have := hmin_le s hs
            omega
          rw [hmap2, hclmin]
      · -- strictly in between: N + csep < W < M + csep
        have hNW : N + csep < W := by omega
        simp only [if_neg h3]
        rcases Nat.lt_trichotomy (A + csep) W with h4 | h4 | h4
        · -- Less: distribute the slack by max − avg headroom
          simp only [if_pos h4]
          have hheads : optMap (fun s => checkedSub s.max s.avg) cl
              = some (cl.map fun s => s.max - s.avg) :=
            optMap_eq_map _ fun s hs => checkedSub_of_le (havg_le s hs)
          simp only [hheads]
          have hdsum : (cl.map fun s => s.max - s.avg).sum = M - A := by
            rw [sum_map_sub_of_le _ _ _ havg_le, ← hA, hclmax, ← hM]
          have hdpos : (cl.map fun s => s.max - s.avg).sum ≠ 0 := by
            rw [hdsum]
            omega
          simp only [lessBranch_eval cl (W - (A + csep)) _ hdpos havg_le]
        · have hnl : ¬(A + csep < W) := by omega
          simp only [if_neg hnl, if_pos h4]
        · -- Greater: remove the excess by avg − min slack, ceiling division
          have hnl : ¬(A + csep < W) := by omega
          have hne4 : ¬(A + csep = W) := by omega
          simp only [if_neg hnl, if_neg hne4]
          have hslacks : optMap (fun s => checkedSub s.avg s.min) cl
              = some (cl.map fun s => s.avg - s.min) :=
            optMap_eq_map _ fun s hs => checkedSub_of_le (hmin_le s hs)
          simp only [hslacks]
          have hdsum : (cl.map fun s => s.avg - s.min).sum = A - N := by
            rw [sum_map_sub_of_le _ _ _ hmin_le, ← hA, hclmin, ← hN]
          have hdpos : (cl.map fun s => s.avg - s.min).sum ≠ 0 := by
            rw [hdsum]
            omega
          have hqle : ∀ s ∈ cl,
              ((A + csep - W) * (s.avg - s.min) +
                  (cl.map fun s => s.avg - s.min).sum - 1) /
                (cl.map fun s => s.avg - s.min).sum ≤ s.avg := by
            intro s hs
            rw [ceil_le_iff (Nat.pos_of_ne_zero hdpos)]
            have hsl := hmin_le s hs
            have hext_le : A + csep - W ≤ (cl.map fun s => s.avg - s.min).sum := by
              rw [hdsum]
              omega
            calc (A + csep - W) * (s.avg - s.min)
                ≤ (cl.map fun s => s.avg - s.min).sum * (s.avg - s.min) :=
                  Nat.mul_le_mul_right _ hext_le
              _ ≤ (cl.map fun s => s.avg - s.min).sum * s.avg :=
                  Nat.mul_le_mul_left _ (by omega)
          simp only [greaterBranch_eval cl (A + csep - W) _ hdpos hmin_le hqle]

theorem sum_map_mul_const {α : Type} (l : List α) (c : Nat) (f : α → Nat) :
    (l.map fun a => c * f a).sum = c * (l.map f).sum := by
  induction l with
  | nil => simp
  | cons a rest ih => simp [ih, Nat.mul_add]

/-! ### The width allocation never exceeds the target when the minimum fits -/

theorem claimWidths_sum_le (stats : List ColumnStat) (W : Nat)
    (hne : stats ≠ []) (h : ∀ s ∈ stats, s.min ≤ s.avg ∧ s.avg ≤ s.max)
    (hW : (stats.map fun s => s.min).sum + (stats.length - 1) * 3 < W) :
    (claimWidths stats W).sum + (stats.length - 1) * 3 ≤ W := by
  simp only [claimWidths]
  set cl := stats.map (fun s => { s with avg := Nat.max s.avg s.min }) with hcl
  have havg_le : ∀ s ∈ cl, s.avg ≤ s.max := by
    intro s hs
    rw [hcl] at hs
    obtain ⟨s0, hs0, rfl⟩ := List.mem_map.mp hs
    have hh := h s0 hs0
    simp only [Nat.max_le]
    exact ⟨hh.2, Nat.le_trans hh.1 hh.2⟩
  have hmin_le : ∀ s ∈ cl, s.min ≤ s.avg := by
    intro s hs
    rw [hcl] at hs
    obtain ⟨s0, hs0, rfl⟩ := List.mem_map.mp hs
    exact Nat.le_max_right _ _
  have hclmax : (cl.map fun s => s.max) = stats.map fun s => s.max := by
    rw [hcl, List.map_map]
    rfl
  have hclmin : (cl.map fun s => s.min) = stats.map fun s => s.min := by
    rw [hcl, List.map_map]
    rfl
  set csep := (stats.length - 1) * 3 with hcsep
  set M := (stats.map fun s => s.max).sum with hM
  set N := (stats.map fun s => s.min).sum with hN
  set A := (cl.map fun s => s.avg).sum with hA
  have hNA : N ≤ A := by
    rw [hN, ← hclmin, hA]
    exact sum_map_le_of_le _ _ _ hmin_le
  have hMA : A ≤ M := by
    rw [hA, hM, ← hclmax]
    exact sum_map_le_of_le _ _ _ havg_le
  by_cases h1 : M + csep ≤ W
  · simp only [if_pos h1]
    rw [← hM]
    exact h1
  · simp only [if_neg h1, if_neg (show ¬(N + csep > W) by omega)]
    rcases Nat.lt_trichotomy (A + csep) W with h4 | h4 | h4
    · -- Less: sum = A + Σ floor(extra·headroom/delta) ≤ A + extra
      simp only [if_pos h4]
      have hdsum : (cl.map fun s => s.max - s.avg).sum = M - A := by
        rw [sum_map_sub_of_le _ _ _ havg_le, ← hA, hclmax, ← hM]
      have hdpos : 0 < (cl.map fun s => s.max - s.avg).sum := by
        rw [hdsum]
        omega
      rw [sum_map_add cl (fun s => s.avg) (fun s =>
        (W - (A + csep)) * (s.max - s.avg) / (cl.map fun s => s.max - s.avg).sum)]
      have hdivle : (cl.map fun s =>
            (W - (A + csep)) * (s.max - s.avg) / (cl.map fun s => s.max - s.avg).sum).sum
          ≤ W - (A + csep) := by
        calc (cl.map fun s =>
              (W - (A + csep)) * (s.max - s.avg) / (cl.map fun s => s.max - s.avg).sum).sum
            ≤ (cl.map fun s => (W - (A + csep)) * (s.max - s.avg)).sum /
                (cl.map fun s => s.max - s.avg).sum :=
              sum_map_div_le cl _ _
          _ = (W - (A + csep)) * (cl.map fun s => s.max - s.avg).sum /
                (cl.map fun s => s.max - s.avg).sum := by
              rw [sum_map_mul_const]
          _ = W - (A + csep) := Nat.mul_div_cancel _ hdpos
      rw [← hA]
      omega
    · simp only [if_neg (show ¬(A + csep < W) by omega), if_pos h4]
      rw [← hA]
      omega
    · -- Greater: sum = A − Σ ceil(extra·slack/delta) and Σ ceil ≥ extra
      simp only [if_neg (show ¬(A + csep < W) by omega),
        if_neg (show ¬(A + csep = W) by omega)]
      have hdsum : (cl.map fun s => s.avg - s.min).sum = A - N := by
        rw [sum_map_sub_of_le _ _ _ hmin_le, ← hA, hclmin, ← hN]
      have hdpos : 0 < (cl.map fun s => s.avg - s.min).sum := by
        rw [hdsum]
        omega
      have hqle : ∀ s ∈ cl,
          ((A + csep - W) * (s.avg - s.min) +
              (cl.map fun s => s.avg - s.min).sum - 1) /
            (cl.map fun s => s.avg - s.min).sum ≤ s.avg := by
        intro s hs
        rw [ceil_le_iff hdpos]
        have hsl := hmin_le s hs
        have hext_le : A + csep - W ≤ (cl.map fun s => s.avg - s.min).sum := by
          rw [hdsum]
          omega
        calc (A + csep - W) * (s.avg - s.min)
            ≤ (cl.map fun s => s.avg - s.min).sum * (s.avg - s.min) :=
              Nat.mul_le_mul_right _ hext_le
          _ ≤ (cl.map fun s => s.avg - s.min).sum * s.avg :=
              Nat.mul_le_mul_left _ (by omega)
      rw [sum_map_sub_of_le cl _ _ hqle]
      have hceilge : A + csep - W ≤ (cl.map fun s =>
          ((A + csep - W) * (s.avg - s.min) +
              (cl.map fun s => s.avg - s.min).sum - 1) /
            (cl.map fun s => s.avg - s.min).sum).sum := by
        calc A + csep - W
            = ((cl.map fun s => s.avg - s.min).sum * (A + csep - W) +
                (cl.map fun s => s.avg - s.min).sum - 1) /
              (cl.map fun s => s.avg - s.min).sum := (ceil_mul_self hdpos _).symm
          _ = ((cl.map fun s => (A + csep - W) * (s.avg - s.min)).sum +
                (cl.map fun s => s.avg - s.min).sum - 1) /
              (cl.map fun s => s.avg - s.min).sum := by
              rw [sum_map_mul_const, Nat.mul_comm]
          _ ≤ (cl.map fun s =>
                ((A + csep - W) * (s.avg - s.min) +
                    (cl.map fun s => s.avg - s.min).sum - 1) /
                  (cl.map fun s => s.avg - s.min).sum).sum :=
              ceil_sum_le cl _ hdpos
      have hsuble : (cl.map fun s =>
          ((A + csep - W) * (s.avg - s.min) +
              (cl.map fun s => s.avg - s.min).sum - 1) /
            (cl.map fun s => s.avg - s.min).sum).sum
          ≤ (cl.map fun s => s.avg).sum :=
        sum_map_le_of_le _ _ _ hqle
      rw [← hA] at hsuble ⊢
      omega

/-! ### No division by zero / no panic in the layout arithmetic -/

theorem foldl_cellStatStep_count : ∀ (cells : List (List Char)) (acc : Nat × Nat × Nat × Nat),
    (cells.foldl cellStatStep acc).1 = acc.1 + cells.length := by
  intro cells
  induction cells with
  | nil => intro acc; simp
  | cons c rest ih =>
    intro acc
    rw [List.foldl_cons, ih]
    simp [cellStatStep]
    omega

theorem compute_column_stats_isSome (data : List (List (List Char))) :
    (compute_column_stats data).isSome := by
  simp only [compute_column_stats]
  apply optMap_isSome
  intro i hi
  have hi' : i < natListMax (data.map List.length) := List.mem_range.mp hi
  obtain ⟨n, hn, hin⟩ := natListMax_lt hi'
  obtain ⟨r, hr, rfl⟩ := List.mem_map.mp hn
  have hget : r.get? i = some (r.get ⟨i, hin⟩) := List.get?_eq_get hin
  have hx : r.get ⟨i, hin⟩ ∈ data.filterMap fun r => r.get? i :=
    List.mem_filterMap.mpr ⟨r, hr, hget⟩
  have hlen : 0 < (data.filterMap fun r => r.get? i).length :=
    List.length_pos.mpr (by
      intro he
      rw [he] at hx
      simp at hx)
  have hcount : ((data.filterMap fun r => r.get? i).foldl cellStatStep
      ((0, 0, 0, 0) : Nat × Nat × Nat × Nat)).1
      = (data.filterMap fun r => r.get? i).length := by
    rw [foldl_cellStatStep_count]
    simp
  rw [hcount, checkedDiv_of_ne (by omega)]
  rfl

theorem compute_widths_isSome (stats : List ColumnStat) (W : Nat)
    (hne : stats ≠ []) (h : ∀ s ∈ stats, s.min ≤ s.max ∧ s.avg ≤ s.max) :
    (compute_widths stats (some W)).isSome := by
  rw [compute_widths_eq_claimWidths stats W hne h]
  rfl

/-! ### The fill/wrap collaborator (textwrap::fill)

`fill` models `textwrap::fill(text, Options::new(width)
.initial_indent(ii).subsequent_indent(si))`: every input line is wrapped
to the width budget left by the (equal-display-width) indents, the first
output line gets the initial indent, every later one the subsequent
indent.  The claims only exercise inputs whose lines all fit within the
width, where fill returns the indented text unchanged; the greedy
word-packing used beyond that point stands in for textwrap's wrapping
algorithm. -/

/-- `LINE_LENGTH` from src/lib.rs. -/
def LINE_LENGTH : Nat := 80

def greedyAux (width : Nat) : List (List Char) → List Char → List (List Char)
  | [], cur => [cur]
  | w :: rest, cur =>
    if displayWidth cur + 1 + displayWidth w ≤ width then
      greedyAux width rest (cur ++ ' ' :: w)
    else cur :: greedyAux width rest w

def wrapLine (width : Nat) (line : List Char) : List (List Char) :=
  if displayWidth line ≤ width then [line]
  else
    match (splitChar ' ' line).filter (· ≠ []) with
    | [] => [[]]
    | w :: ws => greedyAux width ws w

def joinLines : List (List Char) → List Char
  | [] => []
  | [x] => x
  | x :: xs => x ++ '\n' :: joinLines xs

def indentLines (ii si : List Char) : List (List Char) → List (List Char)
  | [] => []
  | x :: xs => (ii ++ x) :: xs.map (si ++ ·)

def fill (width : Nat) (ii si text : List Char) : List Char :=
  joinLines (indentLines ii si
    ((splitChar '\n' text).flatMap fun line => wrapLine (width - displayWidth si) line))

/-! ### The Block/RawBlock accumulator (src/html/state.rs)

`State`'s string fields are `List Char`; `initialInd`, `subsequentInd` and
`gapOffset` correspond to the source's initial/subsequent indentation
strings and its gap offset field (the installed strings are ASCII, so the
byte lengths used by the source equal the char counts used here).
A `Block` mutably borrows the `State` in the source; here every operation
threads the pair `State × Block` explicitly, and `Block.close` plays the
source's `Drop` impl. -/

structure State where
  result : List Char
  pending : List Char
  initialInd : List Char
  subsequentInd : List Char
  gapOffset : Nat

def State.init : State := ⟨[], [], [], [], 0⟩

/-- `State::render` (its `debug_assert!(pending.is_empty())` is a
debug-time assertion about block lifecycle, not part of the output). -/
def State.render (st : State) : List Char := st.result

structure Block where
  pendingWhitespace : Bool
  indents : Option (List Char × List Char × List Char)
  pendingRawStart : Option (List Char)
  mustEmit : Bool
  inCode : Bool
  inItem : Bool

/-- The block returned by `State::root_block`. -/
def Block.init : Block := ⟨false, none, none, false, false, false⟩

/-- `Block::pre_push`: resolve one pending inter-element space, then a
pending raw start marker. -/
def Block.prePush : State × Block → State × Block := fun bs =>
  let st := bs.1
  let b := bs.2
  let p :=
    if b.pendingWhitespace ∧ ¬(st.pending = [] ∨ st.pending.getLast? = some '\n') then
      ({ st with pending := st.pending ++ [' '] }, { b with pendingWhitespace := false })
    else (st, b)
  match p.2.pendingRawStart with
  | some s => ({ p.1 with pending := p.1.pending ++ s }, { p.2 with pendingRawStart := none })
  | none => p

/-- `Block::push`. -/
def Block.push (s : List Char) : State × Block → State × Block := fun bs =>
  let st := bs.1
  let b := bs.2
  if s.all is_whitespace then
    (st, { b with pendingWhitespace := b.pendingWhitespace || !s.isEmpty })
  else
    let b := { b with pendingWhitespace :=
      (b.pendingWhitespace || decide (s.head?.map is_whitespace = some true)) }
    let p := Block.prePush (st, b)
    let st :=
      if p.2.inCode then { p.1 with pending := p.1.pending ++ squeeze s }
      else { p.1 with pending := p.1.pending ++ escape_markdown (squeeze s) }
    (st, { p.2 with pendingWhitespace := decide (s.getLast?.map is_whitespace = some true) })

/-- `Block::push_raw`. -/
def Block.push_raw (s : List Char) : State × Block → State × Block := fun bs =>
  let p := Block.prePush bs
  ({ p.1 with pending := p.1.pending ++ s }, p.2)

/-- `Block::push_raw_start`. -/
def Block.push_raw_start (s : List Char) : State × Block → State × Block := fun bs =>
  (bs.1, { bs.2 with pendingRawStart := some s })

/-- `Block::push_raw_end`. -/
def Block.push_raw_end (s : List Char) : State × Block → State × Block := fun bs =>
  if bs.2.pendingRawStart.isSome then (bs.1, { bs.2 with pendingRawStart := none })
  else ({ bs.1 with pending := bs.1.pending ++ s }, bs.2)

/-- `Block::newline`. -/
def Block.newline : State × Block → State × Block := fun bs =>
  ({ bs.1 with pending := bs.1.pending ++ ['\n'] }, { bs.2 with pendingWhitespace := false })

def Block.start_code : State × Block → State × Block := fun bs =>
  (bs.1, { bs.2 with inCode := true })

def Block.end_code : State × Block → State × Block := fun bs =>
  (bs.1, { bs.2 with inCode := false })

def Block.mustEmitOp : State × Block → State × Block := fun bs =>
  (bs.1, { bs.2 with mustEmit := true })

/-- `Block::prefix(initial, subsequent)`: install one more indentation
layer, remembering the strings and the previous initial indent for
`Block.close` to unwind. -/
def Block.installIndent (ii si : List Char) : State × Block → State × Block := fun bs =>
  let st := bs.1
  let newInitial := (if st.gapOffset = 0 then st.subsequentInd else st.initialInd) ++ ii
  ({ st with initialInd := newInitial,
             subsequentInd := st.subsequentInd ++ si,
             gapOffset := st.gapOffset + si.length },
   { bs.2 with indents := some (ii, si, st.initialInd) })

/-- `Block::push_gap`. -/
def Block.pushGap : State × Block → State × Block := fun bs =>
  let st := bs.1
  let b := bs.2
  if st.result = [] then bs
  else
    let st :=
      if !b.inItem then
        { st with result := st.result ++ '\n' ::
            rustTrimEnd (st.subsequentInd.take (st.subsequentInd.length - st.gapOffset)) }
      else st
    ({ st with result := st.result ++ ['\n'] }, b)

/-- `Block::push_pending(drop)`. -/
def Block.pushPending (drop : Bool) : State × Block → State × Block := fun bs =>
  let st := bs.1
  let b := bs.2
  if st.pending ≠ [] then
    let p := Block.pushGap (st, b)
    let pr :=
      if p.1.gapOffset = 0 then (p.1.subsequentInd, p.1)
      else (p.1.initialInd, { p.1 with gapOffset := 0 })
    ({ pr.2 with
        result := pr.2.result ++ fill LINE_LENGTH pr.1 pr.2.subsequentInd pr.2.pending,
        pending := [] },
     { p.2 with pendingWhitespace := false })
  else if drop ∧ b.mustEmit ∧ st.gapOffset ≠ 0 then
    let p := Block.pushGap (st, b)
    ({ p.1 with result := p.1.result ++ rustTrimEnd p.1.initialInd }, p.2)
  else bs

/-- `Block::new_block_inner`: flush the parent, return the parent pair and
the fresh child block. -/
def Block.newBlockInner (inItem : Bool) : State × Block → (State × Block) × Block := fun bs =>
  let bs := Block.pushPending false bs
  (bs, { Block.init with inCode := bs.2.inCode, inItem := inItem })

def Block.newBlock (bs : State × Block) : (State × Block) × Block :=
  Block.newBlockInner bs.2.inItem bs

def Block.newItem (bs : State × Block) : (State × Block) × Block :=
  Block.newBlockInner true bs

/-- The `Drop` impl of `Block`: flush (with `drop = true`) and unwind the
installed indentation layer. -/
def Block.close (bs : State × Block) : State :=
  let p := Block.pushPending true bs
  match p.2.indents with
  | some (ii, si, prev) =>
    { p.1 with
        gapOffset := p.1.gapOffset - ii.length,
        initialInd := prev,
        subsequentInd := p.1.subsequentInd.take (p.1.subsequentInd.length - si.length) }
  | none => p.1

/-- Modelled from the spec: the fill step of the width-aware revision of
the renderer.  The `render_node` in this tree's src/html.rs is an older
two-argument revision whose `push_pending` always wraps at `LINE_LENGTH`;
its callers (src/lib.rs:416, src/html/table.rs) pass a third
optional-maximum-width argument, and the spec states that an omitted
width means no wrapping.  With `none` the pending text is emitted behind
its indent untouched; with `some w` it is filled at width `w`. -/
def fillOpt (maxWidth : Option Nat) (ii si text : List Char) : List Char :=
  match maxWidth with
  | none => ii ++ text
  | some w => fill w ii si text

/-- Modelled from the spec: `push_pending` of the width-aware revision,
identical to `Block.pushPending` except that the fill step honours the
optional maximum line width. -/
def pushPendingOpt (maxWidth : Option Nat) (drop : Bool) :
    State × Block → State × Block := fun bs =>
  let st := bs.1
  let b := bs.2
  if st.pending ≠ [] then
    let p := Block.pushGap (st, b)
    let pr :=
      if p.1.gapOffset = 0 then (p.1.subsequentInd, p.1)
      else (p.1.initialInd, { p.1 with gapOffset := 0 })
    ({ pr.2 with
        result := pr.2.result ++ fillOpt maxWidth pr.1 pr.2.subsequentInd pr.2.pending,
        pending := [] },
     { p.2 with pendingWhitespace := false })
  else if drop ∧ b.mustEmit ∧ st.gapOffset ≠ 0 then
    let p := Block.pushGap (st, b)
    ({ p.1 with result := p.1.result ++ rustTrimEnd p.1.initialInd }, p.2)
  else bs

/-! ### RawBlock (preformatted regions) -/

structure RawBlock where
  st : State
  atSol : Bool

def splitInclusiveAux (sep : Char) : List Char → List Char → List (List Char)
  | [], acc => if acc = [] then [] else [acc.reverse]
  | c :: cs, acc =>
    if c = sep then (acc.reverse ++ [c]) :: splitInclusiveAux sep cs []
    else splitInclusiveAux sep cs (c :: acc)

/-- `str::split_inclusive('\n')` (no pieces for the empty string). -/
def splitInclusive (sep : Char) (l : List Char) : List (List Char) :=
  splitInclusiveAux sep l []

/-- `RawBlock::handle_prefix`. -/
def RawBlock.handleInd (trim : Bool) (r : RawBlock) : RawBlock :=
  if r.atSol then
    let pr :=
      if r.st.gapOffset = 0 then (r.st.subsequentInd, r.st)
      else (r.st.initialInd, { r.st with gapOffset := 0 })
    { r with st :=
        { pr.2 with result := pr.2.result ++ (if trim then rustTrimEnd pr.1 else pr.1) } }
  else r

/-- `RawBlock::push`. -/
def RawBlock.push (s : List Char) (r : RawBlock) : RawBlock :=
  (splitInclusive '\n' s).foldl
    (fun r line =>
      let r := RawBlock.handleInd (line = ['\n']) r
      { st := { r.st with result := r.st.result ++ line },
        atSol := decide (line.getLast? = some '\n') })
    r

/-- `RawBlock::newline`. -/
def RawBlock.newline (r : RawBlock) : RawBlock :=
  let r := RawBlock.handleInd true r
  { st := { r.st with result := r.st.result ++ ['\n'] }, atSol := true }

/-- `RawBlock::ensure_newline`. -/
def RawBlock.ensureNewline (r : RawBlock) : RawBlock :=
  if r.atSol then r else RawBlock.newline r

/-- `Block::new_raw_block`. -/
def Block.newRawBlock (bs : State × Block) : RawBlock × Block :=
  let bs := Block.pushPending false bs
  let bs := Block.pushGap bs
  ({ st := bs.1, atSol := true }, bs.2)

/-! ### The node renderer (src/html.rs)

The `url` crate is a collaborator: `UrlCtx.join link` models
`url.join(link)` (`none` = `Err`, `some s` = the absolute URL as a string)
and `UrlCtx.makeRel abs` models `url.make_relative(&abs)`. -/

structure UrlCtx where
  join : String → Option String
  makeRel : String → Option String

/-- The destination computed by the `"a"` arm of `render_node_inner`
(src/html.rs:71-107): `none` means the link is suppressed entirely.  A
resolved URL is a same-page anchor when `make_relative` returns an empty
string or one starting with `'#'` (path and query equal, at most the
fragment differs); the link is suppressed when it is such an anchor and
the visible text has at most 1 character (2 when the first is the escape
backslash). -/
def anchorDestination (ctx : UrlCtx) (link : String) (text : List Char) : Option String :=
  match ctx.join link with
  | some absLink =>
    if ¬((ctx.makeRel absLink).map fun u =>
          u.isEmpty || decide (u.data.head? = some '#')) = some true
        ∨ text.length > (if text.head? = some '\\' then 2 else 1) then
      some absLink
    else none
  | none => some link

/-- The text the `"a"` arm appends for a link: `[text](destination)`, or
nothing when the destination is suppressed. -/
def anchorEmission (ctx : UrlCtx) (link : String) (text : List Char) : List Char :=
  match anchorDestination ctx link text with
  | some d => '[' :: (text ++ ']' :: '(' :: (d.data ++ [')']))
  | none => []

/-- The literal `"### "`.. `"###### "` markers of the h3–h6 arms. -/
def headingMarker (name : String) : List Char :=
  if name = "h3" then "### ".data
  else if name = "h4" then "#### ".data
  else if name = "h5" then "##### ".data
  else "###### ".data

/-- The `h1`..`h6` arm of `render_node_inner` (src/html.rs:147-182), given
the already-rendered plain text of the heading's children: nothing is
emitted when that text is empty; h1/h2 emit the text, a newline and a
`=`/`-` underline of length `min(width, LINE_LENGTH)`; h3–h6 emit their
literal marker followed by the text. -/
def renderHeading (name : String) (header : List Char) (bs : State × Block) :
    State × Block :=
  if header = [] then bs
  else
    let p := Block.newBlock bs
    let stc := (p.1.1, p.2)
    let stc :=
      if name = "h1" ∨ name = "h2" then
        let stc := Block.push_raw header stc
        let stc := Block.newline stc
        Block.push_raw
          (List.replicate (Nat.min (displayWidth header) LINE_LENGTH)
            (if name = "h1" then '=' else '-')) stc
      else
        Block.push_raw header (Block.push_raw (headingMarker name) stc)
    (Block.close stc, p.1.2)

mutual

/-- `node.descendants()` of ego_tree: pre-order, including the node. -/
def descendantsOf : HtmlNode → List HtmlNode
  | .text s => [.text s]
  | .element nm a cs => .element nm a cs :: descendantsList cs

def descendantsList : List HtmlNode → List HtmlNode
  | [] => []
  | n :: rest => descendantsOf n ++ descendantsList rest

end

/-- `select_single_element(pre, "code")`: the unique descendant element
named `name`, if exactly one matches. -/
def selectSingleDescendant (name : String) (children : List HtmlNode) : Option HtmlNode :=
  match (descendantsList children).filter (isElemNamed name) with
  | [x] => some x
  | _ => none

def stripLanguageToken (tok : List Char) : Option (List Char) :=
  if "language-".data.isPrefixOf tok then some (tok.drop 9) else none

/-- `class.split(' ').find_map(|x| x.strip_prefix("language-"))`. -/
def findLanguage (cls : List Char) : Option (List Char) :=
  (splitChar ' ' cls).findSome? stripLanguageToken

/-- The language tag of a `<pre>` block, from a contained `<code
class="language-X ...">`. -/
def preLanguage (children : List HtmlNode) : Option (List Char) :=
  match selectSingleDescendant "code" children with
  | some (.element _ a _) => (getAttr a "class").bind fun c => findLanguage c.data
  | _ => none

/-- The descendants walk of the `"pre"` arm: `<br>` elements become
newlines, text nodes are pushed verbatim, everything else is skipped. -/
def renderPreContent : List HtmlNode → RawBlock → RawBlock
  | [], r => r
  | .element n _ _ :: rest, r =>
    renderPreContent rest (if n = "br" then RawBlock.newline r else r)
  | .text t :: rest, r => renderPreContent rest (RawBlock.push t.data r)

mutual

/-- `render_node_inner` (src/html.rs:65-268). -/
def renderNodeInner (ctx : UrlCtx) (node : HtmlNode) (bs : State × Block) :
    State × Block :=
  match node with
  | .text t => Block.push t.data bs
  | .element name attrs children =>
    if name = "a" then
      match getAttr attrs "href" with
      | none => bs
      | some link =>
        let text := (Block.close (renderChildren ctx children (State.init, Block.init))).render
        match anchorDestination ctx link text with
        | some d =>
          let bs := Block.push_raw ['['] bs
          let bs := Block.push_raw text bs
          let bs := Block.push_raw "](".data bs
          let bs := Block.push_raw d.data bs
          Block.push_raw [')'] bs
        | none => bs
    else if name = "b" ∨ name = "strong" then
      Block.push_raw_end "**".data
        (renderChildren ctx children (Block.push_raw_start "**".data bs))
    else if name = "blockquote" then
      let p := Block.newBlock bs
      let stc := Block.installIndent "> ".data "> ".data (p.1.1, p.2)
      (Block.close (renderChildren ctx children stc), p.1.2)
    else if name = "br" then
      Block.newline bs
    else if name = "code" then
      let bs := Block.push_raw_start "`".data bs
      let bs := Block.start_code bs
      let bs := renderChildren ctx children bs
      let bs := Block.end_code bs
      Block.push_raw_end "`".data bs
    else if name = "div" ∨ name = "p" then
      let p := Block.newBlock bs
      (Block.close (renderChildren ctx children (p.1.1, p.2)), p.1.2)
    else if name = "em" ∨ name = "i" then
      Block.push_raw_end "_".data
        (renderChildren ctx children (Block.push_raw_start "_".data bs))
    else if name = "h1" ∨ name = "h2" ∨ name = "h3" ∨ name = "h4" ∨ name = "h5"
        ∨ name = "h6" then
      renderHeading name
        (Block.close (renderChildren ctx children (State.init, Block.init))).render bs
    else if name = "img" then
      match getAttr attrs "src" with
      | none => bs
      | some src =>
        let bs := Block.push_raw "![".data bs
        let bs := Block.push ((getAttr attrs "alt").getD "").data bs
        let bs := Block.push_raw "](".data bs
        let bs := Block.push_raw ((ctx.join src).getD src).data bs
        Block.push_raw [')'] bs
    else if name = "ol" then
      let childCount := (children.filter (isElemNamed "li")).length
      if childCount = 0 then bs
      else
        let numWidth := (toString childCount).length
        let subsequent := List.replicate numWidth ' ' ++ "  ".data
        let p := Block.newBlock bs
        (Block.close (renderOlItems ctx numWidth subsequent 0 children (p.1.1, p.2)), p.1.2)
    else if name = "pre" then
      let p := Block.newRawBlock bs
      let r := RawBlock.push "```".data p.1
      let r :=
        match preLanguage children with
        | some lang => RawBlock.push lang r
        | none => r
      let r := RawBlock.newline r
      let r := renderPreContent (descendantsOf (.element name attrs children)) r
      let r := RawBlock.ensureNewline r
      let r := RawBlock.push "```".data r
      (r.st, p.2)
    else if name = "ul" then
      let p := Block.newBlock bs
      (Block.close (renderUlItems ctx children (p.1.1, p.2)), p.1.2)
    else if name = "script" ∨ name = "style" ∨ name = "template" ∨ name = "title" then
      bs
    else
      renderChildren ctx children bs

def renderChildren (ctx : UrlCtx) (l : List HtmlNode) (bs : State × Block) :
    State × Block :=
  match l with
  | [] => bs
  | n :: rest => renderChildren ctx rest (renderNodeInner ctx n bs)

/-- The `"ol"` arm's loop over the direct `<li>` children: each item gets a
right-aligned `"{n}. "` initial prefix and a blank subsequent prefix of the
same width, with `must_emit` set. -/
def renderOlItems (ctx : UrlCtx) (numWidth : Nat) (subsequent : List Char) (count : Nat)
    (l : List HtmlNode) (bs : State × Block) : State × Block :=
  match l with
  | [] => bs
  | n :: rest =>
    if isElemNamed "li" n then
      let numStr := (toString (count + 1)).data
      let initialInd := List.replicate (numWidth - numStr.length) ' ' ++ numStr ++ ". ".data
      let p := Block.newItem bs
      let stc := Block.mustEmitOp (Block.installIndent initialInd subsequent (p.1.1, p.2))
      let stc := renderNodeInner ctx n stc
      renderOlItems ctx numWidth subsequent (count + 1) rest (Block.close stc, p.1.2)
    else renderOlItems ctx numWidth subsequent count rest bs

/-- The `"ul"` arm's loop over the direct `<li>` children. -/
def renderUlItems (ctx : UrlCtx) (l : List HtmlNode) (bs : State × Block) :
    State × Block :=
  match l with
  | [] => bs
  | n :: rest =>
    if isElemNamed "li" n then
      let p := Block.newItem bs
      let stc := Block.mustEmitOp (Block.installIndent "* ".data "  ".data (p.1.1, p.2))
      let stc := renderNodeInner ctx n stc
      renderUlItems ctx rest (Block.close stc, p.1.2)
    else renderUlItems ctx rest bs

end

/-- `render_node` (src/html.rs:59-63): render into a fresh `State` through
a root `Block`, which is dropped (closed) before `State::render`. -/
def render_node (ctx : UrlCtx) (node : HtmlNode) : List Char :=
  (Block.close (renderNodeInner ctx node (State.init, Block.init))).render

/-! ### Helper lemmas for the claims -/

theorem wordsOf_all_ws : ∀ {l : List Char}, l.all is_whitespace = true →
    wordsOf l = [] := by
  intro l
  induction l with
  | nil => intro _; rfl
  | cons c cs ih =>
    intro h
    simp only [List.all_cons, Bool.and_eq_true] at h
    rw [wordsOf_cons_ws cs h.1]
    exact ih h.2

theorem pushGap_fields (st : State) (b : Block) :
    (Block.pushGap (st, b)).1.pending = st.pending ∧
    (Block.pushGap (st, b)).1.initialInd = st.initialInd ∧
    (Block.pushGap (st, b)).1.subsequentInd = st.subsequentInd ∧
    (Block.pushGap (st, b)).1.gapOffset = st.gapOffset ∧
    (Block.pushGap (st, b)).2 = b := by
  unfold Block.pushGap
  by_cases h : st.result = [] <;> by_cases h2 : b.inItem <;> simp [h, h2]

theorem anchorDestination_of_join_none {ctx : UrlCtx} {link : String}
    (text : List Char) (hj : ctx.join link = none) :
    anchorDestination ctx link text = some link := by
  unfold anchorDestination
  rw [hj]

theorem anchorDestination_of_join_some {ctx : UrlCtx} {link ab : String}
    (text : List Char) (hj : ctx.join link = some ab) :
    anchorDestination ctx link text = none ∨
    anchorDestination ctx link text = some ab := by
  unfold anchorDestination
  simp only [hj]
  by_cases hc : ¬((ctx.makeRel ab).map fun u =>
      u.isEmpty || decide (u.data.head? = some '#')) = some true
      ∨ text.length > (if text.head? = some '\\' then 2 else 1)
  · right; rw [if_pos hc]
  · left; rw [if_neg hc]

theorem anchorDestination_eq_none_iff (ctx : UrlCtx) (link : String)
    (text : List Char) :
    anchorDestination ctx link text = none ↔
      (∃ ab, ctx.join link = some ab ∧
          ((ctx.makeRel ab).map fun u =>
            u.isEmpty || decide (u.data.head? = some '#')) = some true) ∧
        text.length ≤ (if text.head? = some '\\' then 2 else 1) := by
  unfold anchorDestination
  cases hj : ctx.join link with
  | none => simp
  | some ab =>
    dsimp only
    by_cases hP : ((ctx.makeRel ab).map fun u =>
        u.isEmpty || decide (u.data.head? = some '#')) = some true
    · by_cases hl : text.length ≤ (if text.head? = some '\\' then 2 else 1)
      · rw [if_neg (by rw [not_or]; exact ⟨not_not_intro hP, Nat.not_lt.mpr hl⟩)]
        exact iff_of_true rfl ⟨⟨ab, rfl, hP⟩, hl⟩
      · rw [if_pos (Or.inr (Nat.not_le.mp hl))]
        exact iff_of_false (by simp) (fun hc => hl hc.2)
    · rw [if_pos (Or.inl hP)]
      refine iff_of_false (by simp) (fun hc => ?_)
      obtain ⟨⟨ab2, hab2, hP2⟩, _⟩ := hc
      injection hab2 with hEq
      rw [hEq] at hP
      exact hP hP2

theorem anchorEmission_eq_nil_iff (ctx : UrlCtx) (link : String)
    (text : List Char) :
    anchorEmission ctx link text = [] ↔
      anchorDestination ctx link text = none := by
  unfold anchorEmission
  cases h : anchorDestination ctx link text with
  | none => simp
  | some d => simp

/-! ### The claims -/

/-- Claim C1 (corrected): for per-column statistics with `min ≤ max` and —
as amended — `avg ≤ max` for each column and at least one column,
`compute_widths` returns `max` for every column when unconstrained, and
otherwise follows exactly the allocation the claim words describe
(`claimWidths`): `max` when the `max` widths plus `3*(columns-1)`
separators fit, `min` when even the `min` widths plus separators do not
fit, and otherwise the clamp-then-distribute arithmetic. -/
theorem claim_C1 (stats : List ColumnStat)
    (h : ∀ s ∈ stats, s.min ≤ s.max ∧ s.avg ≤ s.max) (hne : stats ≠ []) :
    compute_widths stats none = some (stats.map (·.max)) ∧
    ∀ W, compute_widths stats (some W) = some (claimWidths stats W) :=
  ⟨rfl, fun W => compute_widths_eq_claimWidths stats W hne h⟩

/-- Claim C1's unamended preconditions (only `min ≤ max` per column, any
column count) do not suffice: for stats `[(0,5,0), (0,0,20)]` with maximum
15 the proportional branch's `usize` subtraction `max - avg = 0 - 5`
underflows (panics, embedded as `none`), and for the empty stats list
`(len - 1) * 3` underflows. -/
theorem claim_C1_counterexample :
    compute_widths [⟨0, 5, 0⟩, ⟨0, 0, 20⟩] (some 15) = none ∧
    compute_widths [] (some 20) = none := by
  decide

/-- Instantiation of the amended claim C1 at the spec's worked example:
stats `(4,16,16)` and `(5,5,5)` with maximum total width 20 yield
`[12, 5]`. -/
theorem claim_C1_witness :
    compute_widths [⟨4, 16, 16⟩, ⟨5, 5, 5⟩] (some 20) = some [12, 5] := by
  have h := (claim_C1 [⟨4, 16, 16⟩, ⟨5, 5, 5⟩]
      (by intro s hs; simp at hs; rcases hs with rfl | rfl <;> exact ⟨by decide, by decide⟩)
      (List.cons_ne_nil _ _)).2 20
  exact h.trans (by decide)

/-- Claim C2 (corrected): as amended — for a non-empty stats list with
`min ≤ avg ≤ max` per column whose `min` widths plus separators fit
strictly within the requested maximum — the allocator returns widths whose
sum plus `3*(columns-1)` separator characters never exceeds the requested
maximum. -/
theorem claim_C2 (stats : List ColumnStat) (W : Nat) (hne : stats ≠ [])
    (h : ∀ s ∈ stats, s.min ≤ s.avg ∧ s.avg ≤ s.max)
    (hW : (stats.map fun s => s.min).sum + (stats.length - 1) * 3 < W) :
    ∃ ws, compute_widths stats (some W) = some ws ∧
      ws.sum + (stats.length - 1) * 3 ≤ W := by
  have h2 : ∀ s ∈ stats, s.min ≤ s.max ∧ s.avg ≤ s.max := fun s hs =>
    ⟨Nat.le_trans (h s hs).1 (h s hs).2, (h s hs).2⟩
  exact ⟨claimWidths stats W, compute_widths_eq_claimWidths stats W hne h2,
    claimWidths_sum_le stats W hne h hW⟩

/-- Claim C2 as stated is false in the `min` branch: for the single column
stat `(5,5,5)` (which satisfies `min ≤ avg ≤ max`) and requested maximum 3,
the allocator returns `[5]`, and `5 + (1-1)*3 = 5` exceeds 3. -/
theorem claim_C2_counterexample :
    compute_widths [⟨5, 5, 5⟩] (some 3) = some [5] ∧ ¬(5 + (1 - 1) * 3 ≤ 3) := by
  decide

/-- Instantiation of the amended claim C2 at a concrete input. -/
theorem claim_C2_witness :
    ∃ ws, compute_widths [⟨1, 2, 9⟩, ⟨2, 3, 4⟩] (some 10) = some ws ∧
      ws.sum + (2 - 1) * 3 ≤ 10 := by
  have h := claim_C2 [⟨1, 2, 9⟩, ⟨2, 3, 4⟩] 10 (List.cons_ne_nil _ _)
      (by intro s hs; simp at hs; rcases hs with rfl | rfl <;> exact ⟨by decide, by decide⟩)
      (by decide)
  exact h

/-- Claim C3: refuted — rendering a table whose row exists but has zero
cells panics, so the engine does not survive every malformed tree.  The
HTML parser normalizes `<table><tr></tr></table>` to `table > tbody > tr`;
the parsed cell grid is then `[[]]`, `compute_column_stats` sees zero
columns and returns no stats, and the `usize` expressions
`(column_stats.len() - 1) * 3` in `compute_widths` (when a maximum width
is given) and `3 * (widths.len() - 1)` inside `String::with_capacity`
(when it is not) underflow.  In the embedding the checked subtractions
yield `none`: `render_table` returns `none` (a panic) for every cell
renderer, with and without a maximum width. -/
theorem claim_C3 (renderCell : HtmlNode → Option Nat → List Char) :
    render_table renderCell
      (.element "table" [] [.element "tbody" [] [.element "tr" [] []]])
      (some 80) = none ∧
    render_table renderCell
      (.element "table" [] [.element "tbody" [] [.element "tr" [] []]])
      none = none :=
  ⟨rfl, rfl⟩

/-- Claim C4: for every `<a>` element with an href, in terms of the url
collaborator: the emission is empty exactly when the href resolved against
the base URL is a same-page anchor (`make_relative` returns an empty string
or one starting with `'#'`, i.e. path and query equal) and the rendered
link text has at most 1 character (2 when the first is a backslash);
otherwise the emission is `[text](url)` with the resolved URL, falling back
to the literal href string when resolution fails. -/
theorem claim_C4 (ctx : UrlCtx) (link : String) (text : List Char) :
    (anchorEmission ctx link text = [] ↔
      (∃ ab, ctx.join link = some ab ∧
          ((ctx.makeRel ab).map fun u =>
            u.isEmpty || decide (u.data.head? = some '#')) = some true) ∧
        text.length ≤ (if text.head? = some '\\' then 2 else 1)) ∧
    (∀ ab, ctx.join link = some ab → anchorEmission ctx link text ≠ [] →
      anchorEmission ctx link text
        = '[' :: (text ++ ']' :: '(' :: (ab.data ++ [')']))) ∧
    (ctx.join link = none →
      anchorEmission ctx link text
        = '[' :: (text ++ ']' :: '(' :: (link.data ++ [')']))) := by
  refine ⟨?_, ?_, ?_⟩
  · rw [anchorEmission_eq_nil_iff]
    exact anchorDestination_eq_none_iff ctx link text
  · intro ab hj hne
    rcases anchorDestination_of_join_some text hj with hd | hd
    · exact absurd ((anchorEmission_eq_nil_iff ctx link text).mpr hd) hne
    · unfold anchorEmission
      rw [hd]
  · intro hj
    unfold anchorEmission
    rw [anchorDestination_of_join_none text hj]

/-- Concrete instantiation of claim C4: a one-character `#` self-link to a
same-page anchor is suppressed entirely, and an href the url collaborator
cannot resolve falls back to the literal href string. -/
theorem claim_C4_witness :
    anchorEmission ⟨fun _ => some "https://x.y/a#z", fun _ => some "#z"⟩
      "#z" ['#'] = [] ∧
    anchorEmission ⟨fun _ => none, fun _ => none⟩ "/p" "t".data
      = '[' :: ("t".data ++ ']' :: '(' :: ("/p".data ++ [')'])) := by
  constructor
  · exact (claim_C4 _ _ _).1.mpr ⟨⟨"https://x.y/a#z", rfl, by decide⟩, by decide⟩
  · exact (claim_C4 _ _ _).2.2 rfl

/-- Claim C5 (spec-modelled, since the three-argument `render_node`
revision its callers use is absent from this source snapshot): the
width-aware flush takes an optional maximum output line width; with
`some w` the pending text is filled at width `w` — at `LINE_LENGTH` it
coincides with this snapshot's `Block.pushPending` — and with `none` no
fill/wrap is applied at all: the pending text is emitted verbatim behind
its indent, and in particular survives as a contiguous suffix of the
output. -/
theorem claim_C5 :
    (∀ ii si text : List Char, fillOpt none ii si text = ii ++ text) ∧
    (∀ w ii si text, fillOpt (some w) ii si text = fill w ii si text) ∧
    (∀ drop bs, pushPendingOpt (some LINE_LENGTH) drop bs
      = Block.pushPending drop bs) ∧
    (∀ st b drop, st.pending ≠ [] →
      st.pending <:+ (pushPendingOpt none drop (st, b)).1.result) := by
  refine ⟨fun ii si text => rfl, fun w ii si text => rfl, fun drop bs => rfl, ?_⟩
  intro st b drop hne
  obtain ⟨hp, hi, hs, hg, hb⟩ := pushGap_fields st b
  unfold pushPendingOpt
  dsimp only
  rw [if_pos hne]
  by_cases hz : (Block.pushGap (st, b)).1.gapOffset = 0
  · rw [if_pos hz]
    exact ⟨(Block.pushGap (st, b)).1.result ++ (Block.pushGap (st, b)).1.subsequentInd,
      by simp [fillOpt, hp, List.append_assoc]⟩
  · rw [if_neg hz]
    exact ⟨(Block.pushGap (st, b)).1.result ++ (Block.pushGap (st, b)).1.initialInd,
      by simp [fillOpt, hp, List.append_assoc]⟩

/-- Concrete instantiation of claim C5: with no maximum width the pending
text is flushed without any wrapping. -/
theorem claim_C5_witness :
    fillOpt none "> ".data [] "ab".data = "> ab".data ∧
    "ab".data <:+ (pushPendingOpt none true
      ({ State.init with pending := "ab".data }, Block.init)).1.result := by
  constructor
  · exact (claim_C5.1 "> ".data [] "ab".data).trans (by decide)
  · exact claim_C5.2.2.2 { State.init with pending := "ab".data } Block.init true
      (by decide)

/-- Claim C6: the whitespace squeezer replaces every maximal run of
whitespace (Rust `char::is_whitespace` plus U+200B) by exactly one space
with no leading and no trailing whitespace — its output is exactly the
input's whitespace-free words joined by single spaces — and an
all-whitespace (or empty) input yields the empty sequence. -/
theorem claim_C6 (l : List Char) :
    squeeze l = joinWords (wordsOf l) ∧
    (l.all is_whitespace = true → squeeze l = []) := by
  refine ⟨squeeze_eq_joinWords_wordsOf l, fun h => ?_⟩
  rw [squeeze_eq_joinWords_wordsOf l, wordsOf_all_ws h]
  rfl

/-- Concrete instantiation of claim C6. -/
theorem claim_C6_witness :
    squeeze " \t x  y ".data = "x y".data ∧
    squeeze "  \t ".data = [] := by
  constructor
  · exact (claim_C6 " \t x  y ".data).1.trans (by decide)
  · exact (claim_C6 "  \t ".data).2 (by decide)

/-- Claim C7: the Markdown escaper emits a backslash immediately before
each occurrence of `#`, `*`, `\`, `_` and the backtick, and passes every
other character through unchanged, in order. -/
theorem claim_C7 (l : List Char) :
    escape_markdown l
      = l.flatMap fun c => if isEscapeChar c then ['\\', c] else [c] :=
  escape_markdown_eq_flatMap l

theorem close_pending_result (pend : List Char) (hp : pend ≠ []) :
    (Block.close ({ State.init with pending := pend }, Block.init)).result
      = fill LINE_LENGTH [] [] pend := by
  simp [Block.close, Block.pushPending, Block.pushGap, State.init, Block.init, hp]

set_option maxHeartbeats 16000000 in
set_option maxRecDepth 8000 in
/-- Claim C8: headings.  An empty heading emits nothing; a non-empty
h1 heading emits the text followed on the next line by `=` repeated to the
lesser of the text's display width and the target line length; a non-empty
h3 heading emits the literal `"### "` prefix followed by the text (both
then filled at the line length); and concretely, for every url context,
rendering `<h1>header</h1>` gives `"header\n======"` and rendering
`<h1></h1>` gives the empty string. -/
theorem claim_C8 :
    (∀ name bs, renderHeading name [] bs = bs) ∧
    (∀ h : List Char, h ≠ [] →
      (renderHeading "h1" h (State.init, Block.init)).1.result
        = fill LINE_LENGTH [] []
            (h ++ '\n' :: List.replicate (Nat.min (displayWidth h) LINE_LENGTH) '=')) ∧
    (∀ h : List Char, h ≠ [] →
      (renderHeading "h3" h (State.init, Block.init)).1.result
        = fill LINE_LENGTH [] [] ("### ".data ++ h)) ∧
    (∀ ctx, render_node ctx
        (.element "html" [] [.element "h1" [] [.text "header"]])
      = "header\n======".data) ∧
    (∀ ctx, render_node ctx (.element "html" [] [.element "h1" [] []]) = []) := by
  refine ⟨fun name bs => rfl, ?_, ?_, fun ctx => rfl, fun ctx => rfl⟩
  · intro h hne
    unfold renderHeading
    rw [if_neg hne]
    exact (close_pending_result
        ((h ++ ['\n']) ++ List.replicate (Nat.min (displayWidth h) LINE_LENGTH) '=')
        (by simp)).trans (by simp [List.append_assoc])
  · intro h hne
    unfold renderHeading
    rw [if_neg hne]
    exact close_pending_result ("### ".data ++ h) (by simp)

/-- Concrete instantiation of claim C8's non-empty heading parts. -/
theorem claim_C8_witness :
    (renderHeading "h1" "ab".data (State.init, Block.init)).1.result
      = fill LINE_LENGTH [] []
          ("ab".data ++ '\n' ::
            List.replicate (Nat.min (displayWidth "ab".data) LINE_LENGTH) '=') ∧
    (renderHeading "h3" "ab".data (State.init, Block.init)).1.result
      = fill LINE_LENGTH [] [] ("### ".data ++ "ab".data) :=
  ⟨claim_C8.2.1 "ab".data (by decide), claim_C8.2.2.1 "ab".data (by decide)⟩

/-- Claim C9: whitespace squeezing is idempotent — squeezing an
already-squeezed sequence returns it unchanged. -/
theorem claim_C9 (l : List Char) :
    squeeze (squeeze l) = squeeze l := by
  rw [squeeze_eq_joinWords_wordsOf l, squeeze_eq_joinWords_wordsOf,
    wordsOf_joinWords _ (wordsOf_good l)]

/-- Claim C10: the table layout engine's integer divisions never divide by
zero — in this checked embedding, where every division (and `usize`
subtraction) by/of a bad operand yields `none`, `compute_column_stats`
always returns stats (every column index below the longest row's length
has at least one contributing cell, so the `avg` divisor `count` is
nonzero), and `compute_widths` returns widths for every non-empty stats
list satisfying the column-stat invariants `min ≤ max` and `avg ≤ max`
(so in particular the `delta` sums used as divisors in the two
proportional branches are nonzero whenever those branches are reached). -/
theorem claim_C10 :
    (∀ data : List (List (List Char)), (compute_column_stats data).isSome) ∧
    (∀ stats : List ColumnStat, ∀ W : Nat, stats ≠ [] →
      (∀ s ∈ stats, s.min ≤ s.max ∧ s.avg ≤ s.max) →
      (compute_widths stats (some W)).isSome) :=
  ⟨compute_column_stats_isSome,
    fun stats W hne h => compute_widths_isSome stats W hne h⟩

/-- Concrete instantiation of claim C10. -/
theorem claim_C10_witness :
    (compute_column_stats [["ab".data], ["c".data, "de".data]]).isSome ∧
    (compute_widths [⟨1, 1, 2⟩] (some 4)).isSome := by
  constructor
  · exact claim_C10.1 _
  · exact claim_C10.2 [⟨1, 1, 2⟩] 4 (List.cons_ne_nil _ _)
      (by intro s hs; simp at hs; subst hs; exact ⟨by decide, by decide⟩)

end Zxcv
